import Mathlib

/-!
Verification development for the SCOPE sales-prediction pipeline
(src/TEST/scripts/sales_prediction_model.py, src/scope/utils/data_utils.py,
src/config/main_config.py).

Dates are modelled as natural numbers (days since an epoch); pandas
Timestamps at daily frequency are in order-preserving bijection with them.
Quantities are integers, external-factor values are rationals.  A pandas
column that may hold NaN is a list of `Option` values: `none` models a
missing cell (after a left join, an absent right-hand row and a NaN cell
are indistinguishable, which is exactly how the scripts treat them).
Fallible steps return `Except PipelineError`.
-/

namespace Scope

/-- Errors surfaced by the pipeline.  `valueError` models an exception
raised by pandas (e.g. `pd.date_range` on NaT bounds); `emptyInputError`
is modelled from the spec: the explicit empty-input error the spec's
error taxonomy demands before grid construction.  The scripts themselves
define no such error class. -/
inductive PipelineError where
  | valueError : String → PipelineError
  | emptyInputError : PipelineError
deriving DecidableEq, Repr

/-- One aggregated sales record: the output row of the groupby at
sales_prediction_model.py:107-112 (one row per (date, category) group). -/
structure SalesRec where
  date : Nat
  category : String
  quantity_sold : Int
deriving DecidableEq, Repr

/-- One row of the dense date x category grid after the left join and
fillna(0) at sales_prediction_model.py:125-126. -/
structure GridRow where
  date : Nat
  category : String
  quantity_sold : Int
deriving DecidableEq, Repr

/-- Minimum of a list of naturals, `none` on the empty list: models
`Series.min()` (NaN on an empty series). -/
def listMin : List Nat → Option Nat
  | [] => none
  | x :: xs =>
    match listMin xs with
    | none => some x
    | some m => some (min x m)

/-- Maximum of a list of naturals, `none` on the empty list: models
`Series.max()` (NaN on an empty series). -/
def listMax : List Nat → Option Nat
  | [] => none
  | x :: xs =>
    match listMax xs with
    | none => some x
    | some m => some (max x m)

/-- Consecutive dates `s, s+1, ..., s+n-1`: models
`pd.date_range(start, end, freq=D)` via its element count. -/
def dateRangeAux (s : Nat) : Nat → List Nat
  | 0 => []
  | n + 1 => s :: dateRangeAux (s + 1) n

/-- Inclusive daily date range from `lo` to `hi`
(`pd.date_range(min_date, max_date, freq=D)`, line 117): empty when
`lo > hi`. -/
def dateRange (lo hi : Nat) : List Nat := dateRangeAux lo (hi + 1 - lo)

/-- First-occurrence deduplication with an accumulator of already seen
values. -/
def uniqueFirstAux (seen : List String) : List String → List String
  | [] => []
  | c :: cs =>
    if c ∈ seen then uniqueFirstAux seen cs
    else c :: uniqueFirstAux (c :: seen) cs

/-- Distinct values of a column in first-occurrence order: models
`Series.unique()` (line 120). -/
def uniqueFirst (l : List String) : List String := uniqueFirstAux [] l

/-- Cross product of a date list and a category list, dates as the outer
level: models `pd.MultiIndex.from_product([all_dates, categories])`
(lines 120-122). -/
def crossPairs (dates : List Nat) (cats : List String) : List (Nat × String) :=
  match dates with
  | [] => []
  | d :: ds => cats.map (fun c => (d, c)) ++ crossPairs ds cats

/-- Does a sales record carry the given (date, category) key? -/
def matchesKey (d : Nat) (c : String) (r : SalesRec) : Bool :=
  r.date == d && r.category == c

/-- Rows contributed to the grid by one (date, category) cell of the
cross product: the `how=left` merge keeps one row per matching sales
record and `fillna(0)` turns an unmatched cell into quantity 0
(lines 125-126). -/
def joinRows (daily : List SalesRec) (d : Nat) (c : String) : List GridRow :=
  match daily.filter (matchesKey d c) with
  | [] => [⟨d, c, 0⟩]
  | ms => ms.map fun r => ⟨d, c, r.quantity_sold⟩

/-- Left join of the aggregated sales onto the cross-product index, in
the index's row order (pandas merge with `how=left` preserves left-hand
key order). -/
def buildGrid (daily : List SalesRec) : List (Nat × String) → List GridRow
  | [] => []
  | (d, c) :: ps => joinRows daily d c ++ buildGrid daily ps

/-- The dense-grid portion of `load_and_prepare_data`
(sales_prediction_model.py:114-126): computes the min/max date of the
aggregated sales, builds the cross product of the inclusive daily range
with the distinct observed categories, and left-joins the sales onto it
with missing quantities becoming 0.  On an empty input the min/max are
NaN and `pd.date_range` raises a generic ValueError. -/
def completeSales (daily : List SalesRec) : Except PipelineError (List GridRow) :=
  match listMin (daily.map (·.date)), listMax (daily.map (·.date)) with
  | some lo, some hi =>
    .ok (buildGrid daily
      (crossPairs (dateRange lo hi) (uniqueFirst (daily.map (·.category)))))
  | _, _ => .error (.valueError "Neither start nor end can be NaT")

/-- The cross-product index of the dense grid for date bounds `lo, hi`
and category list `cats`, dates outer and categories inner. -/
def gridPairs (lo hi : Nat) (cats : List String) : List (Nat × String) :=
  crossPairs (dateRange lo hi) cats

/-- Does `p` occur as a contiguous sublist of the second argument?
Models Python's `in` on strings (character lists). -/
def subListAt (p : List Char) : List Char → Bool
  | [] => p.isEmpty
  | c :: t => p.isPrefixOf (c :: t) || subListAt p t

/-- Case-insensitive substring test on column names: models
`pattern.lower() in col.lower()`. -/
def patMatches (pattern col : String) : Bool :=
  subListAt pattern.toLower.toList col.toLower.toList

/-- Schema resolver `find_column_by_pattern(df, patterns)`
(sales_prediction_model.py:55-64 and scope/utils/data_utils.py:11-29):
for each pattern in order, collect the columns containing it
case-insensitively and return the first; with no match fall back to the
table's first column.  `none` models the IndexError `df.columns[0]`
raises on a table with no columns. -/
def find_column_by_pattern (cols : List String) : List String → Option String
  | [] => cols.head?
  | p :: ps =>
    match cols.filter (patMatches p) with
    | [] => find_column_by_pattern cols ps
    | c :: _ => some c

/-- Gregorian civil date (year, month, day) from a day count with epoch
1970-01-01, the standard days-to-civil conversion used by datetime
libraries; models the pandas `.dt.year/.dt.month/.dt.day` accessors. -/
def civilFromDays (z : Nat) : Nat × Nat × Nat :=
  let w := z + 719468
  let era := w / 146097
  let doe := w % 146097
  let yoe := (doe - doe / 1460 + doe / 36524 - doe / 146096) / 365
  let y := yoe + era * 400
  let doy := doe - (365 * yoe + yoe / 4 - yoe / 100)
  let mp := (5 * doy + 2) / 153
  let d := doy - (153 * mp + 2) / 5 + 1
  let m := if mp < 10 then mp + 3 else mp - 9
  (if m ≤ 2 then y + 1 else y, m, d)

/-- The six calendar features added to a row from its own date
(sales_prediction_model.py:129-134 and 253-258). -/
structure CalFeatures where
  dayofweek : Nat
  month : Nat
  day : Nat
  year : Nat
  quarter : Nat
  is_weekend : Nat
deriving DecidableEq, Repr

/-- Day of week with Monday = 0 (pandas `.dt.dayofweek`); day 0 of the
epoch, 1970-01-01, is a Thursday. -/
def dayOfWeek (z : Nat) : Nat := (z + 3) % 7

/-- Derive the six calendar features of one date: models lines 129-134
(equally 253-258), where each feature column is computed from the row's
own date column. -/
def calFeatures (z : Nat) : CalFeatures :=
  let c := civilFromDays z
  { dayofweek := dayOfWeek z
    month := c.2.1
    day := c.2.2
    year := c.1
    quarter := (c.2.1 + 2) / 3
    is_weekend := if 5 ≤ dayOfWeek z then 1 else 0 }

/-- The external-factor cells of the joined table, one per grid row in
grid row order: the `how=left` merge on date (line 137) gives the row
for date d the factor value at d, `none` when the factor series has no
(non-null) entry at d.  An external factor column is modelled as a map
from date to optional value; the series invariant (at most one row per
date) is built into that representation. -/
def extCells (ext : Nat → Option ℚ) (pairs : List (Nat × String)) : List (Option ℚ) :=
  pairs.map fun p => ext p.1

/-- Forward fill of one column given the last value seen so far:
`none` cells inherit the accumulator, `some` cells replace it. -/
def ffillAux {α : Type} (last : Option α) : List (Option α) → List (Option α)
  | [] => []
  | none :: xs => last :: ffillAux last xs
  | some v :: xs => some v :: ffillAux (some v) xs

/-- Column-wise forward fill: models
`fillna(method=ffill)` applied to each external-factor column over the
whole joined table in its row order (lines 139-141).  Cells before the
first known value have nothing to inherit and stay missing. -/
def ffill {α : Type} (l : List (Option α)) : List (Option α) := ffillAux none l

/-- Future dates for the forecast: `pd.date_range(start=last_date + 1
day, periods=days)` (line 247), i.e. the `days` consecutive dates
following the last observed date. -/
def forecastDates (lastDate days : Nat) : List Nat := dateRangeAux (lastDate + 1) days

/-- The single value an external-factor column contributes to every
forecast row (lines 265-269): the last non-null entry of the column in
table row order, and the literal constant 0 when the column has no
non-null entry at all (`... .iloc[-1] if not ... .empty else 0`). -/
def forecastExtVal (cells : List (Option ℚ)) : ℚ :=
  match (cells.filterMap id).getLast? with
  | some v => v
  | none => 0

/-- One forecast row before the prediction loop: its future date, the
six calendar features computed from that date, and the constant value of
one external-factor column. -/
structure ForecastRow where
  date : Nat
  feats : CalFeatures
  extVal : ℚ
deriving DecidableEq, Repr

/-- The forecast frame built by `generate_forecast` (lines 243-269),
restricted to one external-factor column: one row per future date, the
calendar features derived from each row's own date, and the column-wide
constant external-factor value. -/
def generateForecastRows (lastDate days : Nat) (cells : List (Option ℚ)) :
    List ForecastRow :=
  (forecastDates lastDate days).map fun d => ⟨d, calFeatures d, forecastExtVal cells⟩

/-- Values of one table column restricted to the rows of one category:
models `df[df[category_col] == selected_category]` followed by selecting
the column (prepare_features, lines 148-152). -/
def categorySlice {α : Type} (rows : List (String × α)) (cat : String) : List α :=
  (rows.filter (fun r => r.1 == cat)).map (·.2)

/-- The non-null entries of a column, in row order. -/
def presentVals {α : Type} (col : List (Option α)) : List α := col.filterMap id

/-- Mean of the non-null entries of a numeric column, `none` when every
entry is null: models `Series.mean()` (NaN-skipping, NaN on an all-null
column). -/
def colMean (col : List (Option ℚ)) : Option ℚ :=
  match presentVals col with
  | [] => none
  | v :: vs => some (((v :: vs).sum) / ((v :: vs).length : ℚ))

/-- Replace every null cell of a column by the given optional value:
models `Series.fillna(x)` (filling with NaN leaves the column
unchanged). -/
def fillWith {α : Type} (col : List (Option α)) (x : Option α) : List (Option α) :=
  col.map fun c =>
    match c with
    | none => x
    | some v => some v

/-- Imputation of one numeric column inside `prepare_features`
(lines 155-159): when the column has any missing value, fill the missing
cells with the column mean. -/
def imputeNumericCol (col : List (Option ℚ)) : List (Option ℚ) :=
  if col.any (fun c => c.isNone) then fillWith col (colMean col) else col

/-- Number of occurrences of a value in a list. -/
def countVal (l : List String) (v : String) : Nat :=
  (l.filter (fun x => x == v)).length

/-- Pick the better of two mode candidates: strictly more frequent wins,
and on equal frequency the lexicographically smaller wins (pandas
`Series.mode()` sorts, so `mode()[0]` is the smallest most-frequent
value). -/
def betterMode (l : List String) (a b : String) : String :=
  if countVal l a < countVal l b then b
  else if countVal l a = countVal l b ∧ b < a then b
  else a

/-- Mode of the non-null entries of a categorical column
(`Series.mode()[0]`, line 162): a most frequent non-null value;
`none` models the IndexError `mode()[0]` raises on an all-null column. -/
def colMode (col : List (Option String)) : Option String :=
  match presentVals col with
  | [] => none
  | v :: vs => some (vs.foldl (betterMode (v :: vs)) v)

/-- Imputation of one non-numeric column inside `prepare_features`
(lines 160-162): when the column has any missing value, fill the missing
cells with the column mode. -/
def imputeCategoricalCol (col : List (Option String)) : List (Option String) :=
  if col.any (fun c => c.isNone) then fillWith col (colMode col) else col

/-- The configured product category list
(src/config/main_config.py:23-29). -/
def PRODUCT_CATEGORIES : List String :=
  ["accessories", "ammunition", "handgun", "rifle", "shotgun"]

/-- The training loop of `main` (sales_prediction_model.py:301-305):
`models` starts empty and, iterating the given category list in order,
gains one entry per category keyed by the category iterated over.
`train_model` is abstracted as a fallible computation `trainResult` (it
raises, for example, when `train_test_split` at line 174 receives the
empty feature slice of a category absent from the data); the loop has no
exception handling, so the first failure aborts the run and nothing
further is trained or persisted. -/
def mainLoop {α : Type} (trainResult : String → Except PipelineError α) :
    List String → List (String × α) → Except PipelineError (List (String × α))
  | [], ms => .ok ms
  | c :: cs, ms =>
    match trainResult c with
    | .ok m => mainLoop trainResult cs (ms ++ [(c, m)])
    | .error e => .error e

/-- The models mapping built by `main`: the training loop run over the
configured PRODUCT_CATEGORIES list (not over the categories observed in
the data), starting from the empty dict. -/
def mainModels {α : Type} (trainResult : String → Except PipelineError α) :
    Except PipelineError (List (String × α)) :=
  mainLoop trainResult PRODUCT_CATEGORIES []

/-- The six calendar feature column names, in the order they are added
(lines 129-134 and 253-258). -/
def calendarFeatureCols : List String :=
  ["dayofweek", "month", "day", "year", "quarter", "is_weekend"]

/-- Column schema of the training feature matrix X for any category
(prepare_features, lines 149-165): the dense-grid-with-features columns
minus date, the category column and the target, i.e. the six calendar
features followed by the external-factor columns in their joined
order. -/
def trainingFeatureCols (extColNames : List String) : List String :=
  calendarFeatureCols ++ extColNames

/-- Column schema of `forecast_df` just before the prediction loop
(lines 250-269): the date column, the six calendar features, then one
constant column per external-factor column in the same order the
training table holds them. -/
def forecastBaseCols (extColNames : List String) : List String :=
  "date" :: calendarFeatureCols ++ extColNames

/-- Schema of `X_forecast = forecast_df.drop(date, axis=1)`
(line 274). -/
def xForecastCols (cols : List String) : List String :=
  cols.filter (fun c => !(c == "date"))

/-- Schemas of the feature matrices passed to `model.predict` across the
prediction loop (lines 272-280): the loop recomputes `X_forecast` from
the current `forecast_df` and then appends that category's prediction
column to `forecast_df`, so each later category sees every earlier
category's prediction column. -/
def forecastLoopCols (cols : List String) : List String → List (List String)
  | [] => []
  | c :: cs => xForecastCols cols :: forecastLoopCols (cols ++ [c]) cs

/-- One step of the forward-fill accumulator: a known cell replaces the
carried value, a missing cell keeps it. -/
def ffillStep {α : Type} (a : Option α) (x : Option α) : Option α :=
  match x with
  | none => a
  | some v => some v

/-- Forward fill of the joined external-factor column described per date
block: the grid holds `k` consecutive rows (one per category) for each
date, and every row of a date's block receives the value carried into or
established at that date. -/
def ffillBlocks (ext : Nat → Option ℚ) (k : Nat) (a : Option ℚ) : List Nat → List (Option ℚ)
  | [] => []
  | d :: ds =>
    List.replicate k (ffillStep a (ext d)) ++ ffillBlocks ext k (ffillStep a (ext d)) ds

/-- The forward-fill accumulator after scanning the given dates in
order. -/
def accFold (ext : Nat → Option ℚ) (a : Option ℚ) : List Nat → Option ℚ
  | [] => a
  | d :: ds => accFold ext (ffillStep a (ext d)) ds

/-- Modelled from the spec's words for the Schema Resolver contract:
iterate patterns in order, collect all columns matching each pattern as
a case-insensitive substring, return the first column of the first
pattern with any match, and fall back to the table's first column when
no pattern matches any column.  Stated independently of
`find_column_by_pattern` so the code can be checked against it. -/
def resolveRoleSpec (cols : List String) (pats : List String) : Option String :=
  match pats.filter (fun p => cols.any (patMatches p)) with
  | [] => cols.head?
  | p :: _ => (cols.filter (patMatches p)).head?

/-! ## Basic lemmas about the list-level building blocks -/

theorem dateRangeAux_length (s n : Nat) : (dateRangeAux s n).length = n := by
  induction n generalizing s with
  | zero => rfl
  | succ n ih => simp [dateRangeAux, ih]

theorem mem_dateRangeAux {x s n : Nat} : x ∈ dateRangeAux s n ↔ s ≤ x ∧ x < s + n := by
  induction n generalizing s with
  | zero => simp [dateRangeAux]
  | succ n ih =>
    simp only [dateRangeAux, List.mem_cons, ih]
    omega

theorem dateRangeAux_append (s a b : Nat) :
    dateRangeAux s (a + b) = dateRangeAux s a ++ dateRangeAux (s + a) b := by
  induction a generalizing s with
  | zero => simp [dateRangeAux]
  | succ a ih =>
    have h1 : a + 1 + b = (a + b) + 1 := by omega
    have h2 : s + (a + 1) = (s + 1) + a := by omega
    rw [h1]
    simp only [dateRangeAux, h2, ih (s + 1)]
    rfl

theorem dateRangeAux_nodup (s n : Nat) : (dateRangeAux s n).Nodup := by
  induction n generalizing s with
  | zero => simp [dateRangeAux]
  | succ n ih =>
    simp only [dateRangeAux, List.nodup_cons]
    refine ⟨fun hmem => ?_, ih (s + 1)⟩
    have := mem_dateRangeAux.mp hmem
    omega

theorem listMax_eq_none_iff {l : List Nat} : listMax l = none ↔ l = [] := by
  cases l with
  | nil => simp [listMax]
  | cons x xs =>
    simp only [listMax]
    cases listMax xs <;> simp

theorem listMin_eq_none_iff {l : List Nat} : listMin l = none ↔ l = [] := by
  cases l with
  | nil => simp [listMin]
  | cons x xs =>
    simp only [listMin]
    cases listMin xs <;> simp

theorem listMax_spec {l : List Nat} : ∀ {M : Nat}, listMax l = some M →
    M ∈ l ∧ ∀ x ∈ l, x ≤ M := by
  induction l with
  | nil => intro M h; cases h
  | cons x xs ih =>
    intro M h
    simp only [listMax] at h
    cases hx : listMax xs with
    | none =>
      rw [hx] at h
      cases h
      have hnil : xs = [] := listMax_eq_none_iff.mp hx
      subst hnil
      simp
    | some m =>
      rw [hx] at h
      cases h
      obtain ⟨hmem, hb⟩ := ih hx
      constructor
      · rcases Nat.le_total x m with hle | hle
        · exact List.mem_cons_of_mem _ (by rwa [Nat.max_eq_right hle])
        · rw [Nat.max_eq_left hle]; exact List.mem_cons_self _ _
      · intro y hy
        rcases List.mem_cons.mp hy with rfl | hy
        · exact Nat.le_max_left _ _
        · exact le_trans (hb y hy) (Nat.le_max_right _ _)

theorem listMax_complete {l : List Nat} : ∀ {M : Nat}, M ∈ l → (∀ x ∈ l, x ≤ M) →
    listMax l = some M := by
  induction l with
  | nil => intro M h; cases h
  | cons x xs ih =>
    intro M hmem hb
    simp only [listMax]
    cases hx : listMax xs with
    | none =>
      have hnil : xs = [] := listMax_eq_none_iff.mp hx
      subst hnil
      simp at hmem
      simp [hmem]
    | some m =>
      obtain ⟨hm1, hm2⟩ := listMax_spec hx
      have hxM : x ≤ M := hb x (List.mem_cons_self _ _)
      have hmM : m ≤ M := hb m (List.mem_cons_of_mem _ hm1)
      have hMle : M ≤ max x m := by
        rcases List.mem_cons.mp hmem with rfl | hmem
        · exact Nat.le_max_left _ _
        · exact le_trans (hm2 M hmem) (Nat.le_max_right _ _)
      have : max x m = M := le_antisymm (max_le hxM hmM) hMle
      exact congrArg some this

theorem listMin_spec {l : List Nat} : ∀ {m : Nat}, listMin l = some m →
    m ∈ l ∧ ∀ x ∈ l, m ≤ x := by
  induction l with
  | nil => intro m h; cases h
  | cons x xs ih =>
    intro m h
    simp only [listMin] at h
    cases hx : listMin xs with
    | none =>
      rw [hx] at h
      cases h
      have hnil : xs = [] := listMin_eq_none_iff.mp hx
      subst hnil
      simp
    | some k =>
      rw [hx] at h
      cases h
      obtain ⟨hmem, hb⟩ := ih hx
      constructor
      · rcases Nat.le_total x k with hle | hle
        · rw [Nat.min_eq_left hle]; exact List.mem_cons_self _ _
        · exact List.mem_cons_of_mem _ (by rwa [Nat.min_eq_right hle])
      · intro y hy
        rcases List.mem_cons.mp hy with rfl | hy
        · exact Nat.min_le_left _ _
        · exact le_trans (Nat.min_le_right _ _) (hb y hy)

theorem mem_uniqueFirstAux {x : String} {seen l : List String} :
    x ∈ uniqueFirstAux seen l ↔ x ∈ l ∧ x ∉ seen := by
  induction l generalizing seen with
  | nil => simp [uniqueFirstAux]
  | cons c cs ih =>
    by_cases hc : c ∈ seen
    · simp only [uniqueFirstAux, if_pos hc, ih, List.mem_cons]
      constructor
      · rintro ⟨h1, h2⟩
        exact ⟨Or.inr h1, h2⟩
      · rintro ⟨h1 | h1, h2⟩
        · exact absurd (h1 ▸ hc) h2
        · exact ⟨h1, h2⟩
    · simp only [uniqueFirstAux, if_neg hc, List.mem_cons, ih]
      constructor
      · rintro (rfl | ⟨h1, h2⟩)
        · exact ⟨Or.inl rfl, hc⟩
        · exact ⟨Or.inr h1, fun hx => h2 (Or.inr hx)⟩
      · rintro ⟨rfl | h1, h2⟩
        · exact Or.inl rfl
        · by_cases hxc : x = c
          · exact Or.inl hxc
          · exact Or.inr ⟨h1, fun hx => by
              rcases hx with h | h
              · exact hxc h
              · exact h2 h⟩

theorem uniqueFirstAux_nodup (seen l : List String) : (uniqueFirstAux seen l).Nodup := by
  induction l generalizing seen with
  | nil => simp [uniqueFirstAux]
  | cons c cs ih =>
    by_cases hc : c ∈ seen
    · simpa [uniqueFirstAux, if_pos hc] using ih seen
    · simp only [uniqueFirstAux, if_neg hc, List.nodup_cons]
      refine ⟨fun hmem => ?_, ih (c :: seen)⟩
      exact (mem_uniqueFirstAux.mp hmem).2 (List.mem_cons_self _ _)

theorem mem_uniqueFirst {x : String} {l : List String} : x ∈ uniqueFirst l ↔ x ∈ l := by
  simp [uniqueFirst, mem_uniqueFirstAux]

theorem uniqueFirst_nodup (l : List String) : (uniqueFirst l).Nodup :=
  uniqueFirstAux_nodup [] l

theorem mem_crossPairs {p : Nat × String} {dates : List Nat} {cats : List String} :
    p ∈ crossPairs dates cats ↔ p.1 ∈ dates ∧ p.2 ∈ cats := by
  induction dates with
  | nil => simp [crossPairs]
  | cons d ds ih =>
    simp only [crossPairs, List.mem_append, List.mem_map, ih, List.mem_cons]
    constructor
    · rintro (⟨c, hc, rfl⟩ | ⟨h1, h2⟩)
      · exact ⟨Or.inl rfl, hc⟩
      · exact ⟨Or.inr h1, h2⟩
    · rintro ⟨rfl | h1, h2⟩
      · exact Or.inl ⟨p.2, h2, rfl⟩
      · exact Or.inr ⟨h1, h2⟩

theorem crossPairs_length (dates : List Nat) (cats : List String) :
    (crossPairs dates cats).length = dates.length * cats.length := by
  induction dates with
  | nil => simp [crossPairs]
  | cons d ds ih =>
    simp [crossPairs, ih]
    ring

/-! ## Lemmas about the left join and the dense grid -/

theorem matchesKey_iff {d : Nat} {c : String} {r : SalesRec} :
    matchesKey d c r = true ↔ r.date = d ∧ r.category = c := by
  simp [matchesKey]

theorem joinRows_ne_nil (daily : List SalesRec) (d : Nat) (c : String) :
    joinRows daily d c ≠ [] := by
  unfold joinRows
  cases h : daily.filter (matchesKey d c) with
  | nil => simp
  | cons m ms => simp

theorem mem_joinRows_key {daily : List SalesRec} {d : Nat} {c : String} {row : GridRow}
    (h : row ∈ joinRows daily d c) : row.date = d ∧ row.category = c := by
  unfold joinRows at h
  cases hf : daily.filter (matchesKey d c) with
  | nil =>
    rw [hf] at h
    simp at h
    simp [h]
  | cons m ms =>
    rw [hf] at h
    simp only [List.mem_map] at h
    obtain ⟨r, _, rfl⟩ := h
    exact ⟨rfl, rfl⟩

theorem joinRows_of_no_match {daily : List SalesRec} {d : Nat} {c : String}
    (h : ∀ r ∈ daily, ¬(r.date = d ∧ r.category = c)) :
    joinRows daily d c = [⟨d, c, 0⟩] := by
  unfold joinRows
  have hf : daily.filter (matchesKey d c) = [] := by
    rw [List.filter_eq_nil_iff]
    intro r hr
    simp only [matchesKey_iff]
    exact h r hr
  rw [hf]

theorem filter_key_eq_nil_of_nodup {daily : List SalesRec} {d : Nat} {c : String}
    (h : (d, c) ∉ daily.map fun s => (s.date, s.category)) :
    daily.filter (matchesKey d c) = [] := by
  rw [List.filter_eq_nil_iff]
  intro r hr
  simp only [matchesKey_iff]
  rintro ⟨h1, h2⟩
  exact h (List.mem_map.mpr ⟨r, hr, by rw [h1, h2]⟩)

theorem filter_key_eq_singleton {daily : List SalesRec} {r : SalesRec}
    (hmem : r ∈ daily)
    (huniq : (daily.map fun s => (s.date, s.category)).Nodup) :
    daily.filter (matchesKey r.date r.category) = [r] := by
  induction daily with
  | nil => cases hmem
  | cons s ss ih =>
    simp only [List.map_cons, List.nodup_cons] at huniq
    rcases List.mem_cons.mp hmem with rfl | hmem
    · rw [List.filter_cons_of_pos (by simp [matchesKey_iff])]
      have : ss.filter (matchesKey r.date r.category) = [] := by
        rw [List.filter_eq_nil_iff]
        intro t ht
        simp only [matchesKey_iff]
        rintro ⟨h1, h2⟩
        exact huniq.1 (List.mem_map.mpr ⟨t, ht, by rw [h1, h2]⟩)
      rw [this]
    · have hsne : ¬ matchesKey r.date r.category s = true := by
        intro hpos
        obtain ⟨h1, h2⟩ := matchesKey_iff.mp hpos
        exact huniq.1 (List.mem_map.mpr ⟨r, hmem, by rw [h1, h2]⟩)
      rw [List.filter_cons_of_neg hsne]
      exact ih hmem huniq.2

theorem joinRows_self {daily : List SalesRec} {r : SalesRec}
    (hmem : r ∈ daily)
    (huniq : (daily.map fun s => (s.date, s.category)).Nodup) :
    joinRows daily r.date r.category = [⟨r.date, r.category, r.quantity_sold⟩] := by
  unfold joinRows
  rw [filter_key_eq_singleton hmem huniq]
  rfl

theorem filter_key_length_le {daily : List SalesRec} (d : Nat) (c : String)
    (huniq : (daily.map fun s => (s.date, s.category)).Nodup) :
    (daily.filter (matchesKey d c)).length ≤ 1 := by
  induction daily with
  | nil => simp
  | cons s ss ih =>
    simp only [List.map_cons, List.nodup_cons] at huniq
    by_cases hs : matchesKey d c s = true
    · rw [List.filter_cons_of_pos hs]
      obtain ⟨h1, h2⟩ := matchesKey_iff.mp hs
      have : ss.filter (matchesKey d c) = [] := by
        subst h1 h2
        exact filter_key_eq_nil_of_nodup huniq.1
      simp [this]
    · rw [List.filter_cons_of_neg hs]
      exact ih huniq.2

theorem joinRows_length_one {daily : List SalesRec} (d : Nat) (c : String)
    (huniq : (daily.map fun s => (s.date, s.category)).Nodup) :
    (joinRows daily d c).length = 1 := by
  unfold joinRows
  have hle := filter_key_length_le d c huniq
  cases hf : daily.filter (matchesKey d c) with
  | nil => rfl
  | cons m ms =>
    rw [hf] at hle
    simp at hle
    simp [hle]

theorem buildGrid_length {daily : List SalesRec} (ps : List (Nat × String))
    (huniq : (daily.map fun s => (s.date, s.category)).Nodup) :
    (buildGrid daily ps).length = ps.length := by
  induction ps with
  | nil => rfl
  | cons p ps ih =>
    obtain ⟨d, c⟩ := p
    simp only [buildGrid, List.length_append, ih, joinRows_length_one d c huniq,
      List.length_cons]
    omega

theorem mem_buildGrid {daily : List SalesRec} {ps : List (Nat × String)} {row : GridRow} :
    row ∈ buildGrid daily ps ↔ ∃ p ∈ ps, row ∈ joinRows daily p.1 p.2 := by
  induction ps with
  | nil => simp [buildGrid]
  | cons p ps ih =>
    obtain ⟨d, c⟩ := p
    simp only [buildGrid, List.mem_append, ih, List.mem_cons]
    constructor
    · rintro (h | ⟨q, hq, hrow⟩)
      · exact ⟨(d, c), Or.inl rfl, h⟩
      · exact ⟨q, Or.inr hq, hrow⟩
    · rintro ⟨q, rfl | hq, hrow⟩
      · exact Or.inl hrow
      · exact Or.inr ⟨q, hq, hrow⟩

theorem buildGrid_filter (daily : List SalesRec) (d : Nat) (c : String)
    (ps : List (Nat × String)) :
    (buildGrid daily ps).filter (fun row => row.date == d && row.category == c) =
      buildGrid daily (ps.filter (fun p => p.1 == d && p.2 == c)) := by
  induction ps with
  | nil => rfl
  | cons p ps ih =>
    obtain ⟨d', c'⟩ := p
    simp only [buildGrid, List.filter_append]
    by_cases hp : d' = d ∧ c' = c
    · obtain ⟨rfl, rfl⟩ := hp
      rw [List.filter_cons_of_pos (by simp)]
      have : (joinRows daily d' c').filter
          (fun row => row.date == d' && row.category == c') = joinRows daily d' c' := by
        rw [List.filter_eq_self]
        intro row hrow
        obtain ⟨h1, h2⟩ := mem_joinRows_key hrow
        simp [h1, h2]
      rw [this, ih]
      rfl
    · rw [List.filter_cons_of_neg (by simpa using fun h1 h2 => hp ⟨h1, h2⟩)]
      have : (joinRows daily d' c').filter
          (fun row => row.date == d && row.category == c) = [] := by
        rw [List.filter_eq_nil_iff]
        intro row hrow hb
        obtain ⟨h1, h2⟩ := mem_joinRows_key hrow
        rw [Bool.and_eq_true, beq_iff_eq, beq_iff_eq, h1, h2] at hb
        exact hp hb
      rw [this, ih]
      rfl

theorem filter_beq_eq_singleton {l : List String} {c : String}
    (hc : c ∈ l) (hn : l.Nodup) :
    l.filter (fun x => x == c) = [c] := by
  induction l with
  | nil => cases hc
  | cons x xs ih =>
    simp only [List.nodup_cons] at hn
    rcases List.mem_cons.mp hc with rfl | hc
    · rw [List.filter_cons_of_pos (by simp)]
      have : xs.filter (fun x => x == c) = [] := by
        rw [List.filter_eq_nil_iff]
        intro y hy hbeq
        exact hn.1 (beq_iff_eq.mp hbeq ▸ hy)
      rw [this]
    · have hxc : x ≠ c := fun h => hn.1 (h ▸ hc)
      rw [List.filter_cons_of_neg (by simp [hxc])]
      exact ih hc hn.2

theorem crossPairs_filter_eq_singleton {dates : List Nat} {cats : List String}
    {d : Nat} {c : String} (hd : d ∈ dates) (hc : c ∈ cats)
    (hnd : dates.Nodup) (hnc : cats.Nodup) :
    (crossPairs dates cats).filter (fun p => p.1 == d && p.2 == c) = [(d, c)] := by
  induction dates with
  | nil => cases hd
  | cons e ds ih =>
    simp only [List.nodup_cons] at hnd
    simp only [crossPairs, List.filter_append]
    by_cases hede : e = d
    · subst hede
      have h1 : (cats.map fun x => (e, x)).filter (fun p => p.1 == e && p.2 == c) =
          [(e, c)] := by
        rw [List.filter_map]
        have hcomp : ((fun p : Nat × String => p.1 == e && p.2 == c) ∘ fun x => (e, x)) =
            fun x => x == c := by
          funext x
          simp
        rw [hcomp, filter_beq_eq_singleton hc hnc]
        rfl
      have h2 : (crossPairs ds cats).filter (fun p => p.1 == e && p.2 == c) = [] := by
        rw [List.filter_eq_nil_iff]
        intro p hp hb
        rw [Bool.and_eq_true, beq_iff_eq, beq_iff_eq] at hb
        exact hnd.1 (hb.1 ▸ (mem_crossPairs.mp hp).1)
      rw [h1, h2]
      rfl
    · have hd' : d ∈ ds := by
        rcases List.mem_cons.mp hd with h | h
        · exact absurd h.symm hede
        · exact h
      have h1 : (cats.map fun x => (e, x)).filter (fun p => p.1 == d && p.2 == c) =
          [] := by
        rw [List.filter_eq_nil_iff]
        intro p hp hb
        obtain ⟨x, _, rfl⟩ := List.mem_map.mp hp
        rw [Bool.and_eq_true, beq_iff_eq, beq_iff_eq] at hb
        exact hede hb.1
      rw [h1, ih hd' hnd.2]
      rfl

/-! ## Forward-fill semantics over the dense grid -/

theorem ffillAux_replicate_none {α : Type} (a : Option α) (k : Nat)
    (rest : List (Option α)) :
    ffillAux a (List.replicate k (none : Option α) ++ rest) =
      List.replicate k a ++ ffillAux a rest := by
  induction k with
  | zero => rfl
  | succ k ih => simp [List.replicate_succ, ffillAux, ih]

theorem ffillAux_replicate_self {α : Type} (v : α) (k : Nat)
    (rest : List (Option α)) :
    ffillAux (some v) (List.replicate k (some v) ++ rest) =
      List.replicate k (some v) ++ ffillAux (some v) rest := by
  induction k with
  | zero => rfl
  | succ k ih => simp [List.replicate_succ, ffillAux, ih]

theorem ffillAux_block {α : Type} (a : Option α) (x : Option α) {k : Nat}
    (hk : 1 ≤ k) (rest : List (Option α)) :
    ffillAux a (List.replicate k x ++ rest) =
      List.replicate k (ffillStep a x) ++ ffillAux (ffillStep a x) rest := by
  cases x with
  | none => exact ffillAux_replicate_none a k rest
  | some v =>
    obtain ⟨k, rfl⟩ : ∃ k', k = k' + 1 := ⟨k - 1, by omega⟩
    simp only [ffillStep, List.replicate_succ, List.cons_append, ffillAux]
    exact congrArg _ (ffillAux_replicate_self v k rest)

theorem map_snd_const_replicate {α β : Type} (l : List α) (v : β) :
    (l.map fun _ => v) = List.replicate l.length v := by
  induction l with
  | nil => rfl
  | cons x xs ih => simp [List.replicate_succ, ih]

theorem extCells_crossPairs_cons (ext : Nat → Option ℚ) (d : Nat) (ds : List Nat)
    (cats : List String) :
    extCells ext (crossPairs (d :: ds) cats) =
      List.replicate cats.length (ext d) ++ extCells ext (crossPairs ds cats) := by
  simp only [crossPairs, extCells, List.map_append, List.map_map]
  rw [show ((fun p : Nat × String => ext p.1) ∘ fun c => (d, c)) = fun _ => ext d from rfl]
  rw [map_snd_const_replicate]

theorem ffillAux_extCells (ext : Nat → Option ℚ) {cats : List String}
    (hcats : cats ≠ []) :
    ∀ (ds : List Nat) (a : Option ℚ),
    ffillAux a (extCells ext (crossPairs ds cats)) = ffillBlocks ext cats.length a ds := by
  intro ds
  induction ds with
  | nil => intro a; rfl
  | cons d ds ih =>
    intro a
    rw [extCells_crossPairs_cons,
      ffillAux_block a (ext d) (Nat.one_le_iff_ne_zero.mpr
        (fun h => hcats (List.length_eq_zero.mp h))) _]
    simp only [ffillBlocks]
    rw [ih]

theorem zip_map_replicate {v' : Option ℚ} {s : Nat} {p : Nat × String}
    {v : Option ℚ} (cats : List String)
    (h : (p, v) ∈ (cats.map fun c => (s, c)).zip (List.replicate cats.length v')) :
    p.1 = s ∧ p.2 ∈ cats ∧ v = v' := by
  induction cats with
  | nil => cases h
  | cons c cs ih =>
    simp only [List.map_cons, List.length_cons, List.replicate_succ, List.zip_cons_cons,
      List.mem_cons] at h
    rcases h with h | h
    · obtain ⟨h1, h2⟩ := Prod.mk.injEq .. ▸ h
      cases h1
      exact ⟨rfl, List.mem_cons_self _ _, by injection h⟩
    · obtain ⟨h1, h2, h3⟩ := ih h
      exact ⟨h1, List.mem_cons_of_mem _ h2, h3⟩

theorem zip_block_val (ext : Nat → Option ℚ) (cats : List String) :
    ∀ (n s : Nat) (a : Option ℚ) {p : Nat × String} {v : Option ℚ},
    (p, v) ∈ (crossPairs (dateRangeAux s n) cats).zip
      (ffillBlocks ext cats.length a (dateRangeAux s n)) →
    (s ≤ p.1 ∧ p.1 < s + n ∧ p.2 ∈ cats) ∧
      v = accFold ext a (dateRangeAux s (p.1 + 1 - s)) := by
  intro n
  induction n with
  | zero => intro s a p v h; cases h
  | succ n ih =>
    intro s a p v h
    simp only [dateRangeAux] at h
    rw [crossPairs, ffillBlocks,
      List.zip_append (by simp [dateRangeAux_length])] at h
    rcases List.mem_append.mp h with h | h
    · obtain ⟨h1, h2, h3⟩ := zip_map_replicate cats h
      refine ⟨⟨le_of_eq h1.symm, by omega, h2⟩, ?_⟩
      have hr : p.1 + 1 - s = 1 := by omega
      rw [hr]
      simp only [dateRangeAux, accFold, h3, h1]
    · obtain ⟨⟨hb1, hb2, hb3⟩, hv⟩ := ih (s + 1) (ffillStep a (ext s)) h
      refine ⟨⟨by omega, by omega, hb3⟩, ?_⟩
      have hr : p.1 + 1 - s = (p.1 - s) + 1 := by omega
      have hr2 : p.1 + 1 - (s + 1) = p.1 - s := by omega
      rw [hr]
      simp only [dateRangeAux, accFold]
      rw [hv, hr2]

theorem accFold_all_none (ext : Nat → Option ℚ) :
    ∀ (ds : List Nat) (a : Option ℚ), (∀ x ∈ ds, ext x = none) →
    accFold ext a ds = a := by
  intro ds
  induction ds with
  | nil => intro a _; rfl
  | cons d ds ih =>
    intro a h
    simp only [accFold, h d (List.mem_cons_self _ _), ffillStep]
    exact ih a fun x hx => h x (List.mem_cons_of_mem _ hx)

theorem accFold_append (ext : Nat → Option ℚ) :
    ∀ (l1 l2 : List Nat) (a : Option ℚ),
    accFold ext a (l1 ++ l2) = accFold ext (accFold ext a l1) l2 := by
  intro l1
  induction l1 with
  | nil => intro l2 a; rfl
  | cons d ds ih =>
    intro l2 a
    simp only [List.cons_append, accFold]
    exact ih l2 (ffillStep a (ext d))

theorem accFold_last_known (ext : Nat → Option ℚ) {lo d dk : Nat} {w : ℚ}
    (hlo : lo ≤ dk) (hdk : dk ≤ d) (hw : ext dk = some w)
    (hafter : ∀ e, dk < e → e ≤ d → ext e = none) (a : Option ℚ) :
    accFold ext a (dateRangeAux lo (d + 1 - lo)) = some w := by
  have hsplit : d + 1 - lo = (dk - lo) + (d + 1 - dk) := by omega
  rw [hsplit, dateRangeAux_append, accFold_append]
  have hlo' : lo + (dk - lo) = dk := by omega
  rw [hlo']
  have hd1 : d + 1 - dk = (d - dk) + 1 := by omega
  rw [hd1]
  simp only [dateRangeAux, accFold, hw, ffillStep]
  exact accFold_all_none ext _ _ fun x hx => by
    have := mem_dateRangeAux.mp hx
    exact hafter x (by omega) (by omega)

theorem getLast?_replicate_one_le {α : Type} (v : α) {k : Nat} (hk : 1 ≤ k) :
    (List.replicate k v).getLast? = some v := by
  obtain ⟨k, rfl⟩ : ∃ k', k = k' + 1 := ⟨k - 1, by omega⟩
  induction k with
  | zero => rfl
  | succ k ih =>
    rw [List.replicate_succ, show List.replicate (k + 1) v = v :: List.replicate k v from rfl,
      List.getLast?_cons_cons]
    exact ih (by omega)

theorem ne_nil_of_getLast?_eq_some {α : Type} {l : List α} {x : α}
    (h : l.getLast? = some x) : l ≠ [] := by
  intro hnil
  subst hnil
  cases h

theorem getLast?_append_right {α : Type} (l1 : List α) {l2 : List α}
    (h : l2 ≠ []) : (l1 ++ l2).getLast? = l2.getLast? := by
  induction l1 with
  | nil => rfl
  | cons x xs ih =>
    cases hx : xs ++ l2 with
    | nil =>
      rcases List.append_eq_nil.mp hx with ⟨-, h2⟩
      exact absurd h2 h
    | cons y ys =>
      rw [List.cons_append, hx, List.getLast?_cons_cons, ← hx, ih]

theorem ffillBlocks_ne_nil (ext : Nat → Option ℚ) {k : Nat} (a : Option ℚ)
    {ds : List Nat} (hk : 1 ≤ k) (hds : ds ≠ []) :
    ffillBlocks ext k a ds ≠ [] := by
  cases ds with
  | nil => exact absurd rfl hds
  | cons d ds =>
    simp only [ffillBlocks]
    intro hnil
    rcases List.append_eq_nil.mp hnil with ⟨h1, -⟩
    have := congrArg List.length h1
    simp at this
    omega

theorem ffillBlocks_getLast (ext : Nat → Option ℚ) {k : Nat} (hk : 1 ≤ k) :
    ∀ (ds : List Nat) (a : Option ℚ), ds ≠ [] →
    (ffillBlocks ext k a ds).getLast? = some (accFold ext a ds) := by
  intro ds
  induction ds with
  | nil => intro a h; exact absurd rfl h
  | cons d ds ih =>
    intro a _
    by_cases hds : ds = []
    · subst hds
      simp only [ffillBlocks, List.append_nil, accFold]
      exact getLast?_replicate_one_le _ hk
    · rw [show ffillBlocks ext k a (d :: ds) =
          List.replicate k (ffillStep a (ext d)) ++
            ffillBlocks ext k (ffillStep a (ext d)) ds from rfl]
      rw [getLast?_append_right _ (ffillBlocks_ne_nil ext _ hk hds)]
      exact ih (ffillStep a (ext d)) hds

theorem filterMap_id_getLast {α : Type} :
    ∀ {l : List (Option α)} {w : α}, l.getLast? = some (some w) →
    (l.filterMap id).getLast? = some w := by
  intro l
  induction l with
  | nil => intro w h; cases h
  | cons x t ih =>
    intro w h
    by_cases ht : t = []
    · subst ht
      cases h
      rfl
    · obtain ⟨y, ys, rfl⟩ : ∃ y ys, t = y :: ys := by
        cases t with
        | nil => exact absurd rfl ht
        | cons y ys => exact ⟨y, ys, rfl⟩
      rw [List.getLast?_cons_cons] at h
      have hrec := ih h
      cases x with
      | none =>
        rw [show List.filterMap id (none :: y :: ys) = List.filterMap id (y :: ys) from rfl]
        exact hrec
      | some u =>
        rw [show List.filterMap id (some u :: y :: ys) =
          u :: List.filterMap id (y :: ys) from rfl]
        cases hfm : ((y :: ys).filterMap id) with
        | nil => rw [hfm] at hrec; cases hrec
        | cons z zs =>
          rw [List.getLast?_cons_cons]
          exact hfm ▸ hrec

/-! ## Lemmas about imputation, the mode, the resolver and the fan-out -/

theorem mem_of_getElem?_eq_some {α : Type} :
    ∀ {l : List α} {i : Nat} {x : α}, l[i]? = some x → x ∈ l := by
  intro l
  induction l with
  | nil => intro i x h; cases h
  | cons y ys ih =>
    intro i x h
    cases i with
    | zero =>
      rw [List.getElem?_cons_zero] at h
      cases h
      exact List.mem_cons_self _ _
    | succ i =>
      rw [List.getElem?_cons_succ] at h
      exact List.mem_cons_of_mem _ (ih h)

theorem colMean_of_ne_nil {col : List (Option ℚ)} (h : presentVals col ≠ []) :
    colMean col =
      some ((presentVals col).sum / ((presentVals col).length : ℚ)) := by
  unfold colMean
  cases hp : presentVals col with
  | nil => exact absurd hp h
  | cons v vs => rfl

theorem fillWith_getElem {α : Type} (col : List (Option α)) (x : Option α)
    {i : Nat} (h : col[i]? = some none) :
    (fillWith col x)[i]? = some x := by
  unfold fillWith
  rw [List.getElem?_map, h]
  rfl

theorem imputeNumericCol_getElem {col : List (Option ℚ)} {i : Nat}
    (hmiss : col[i]? = some none) (hpres : presentVals col ≠ []) :
    (imputeNumericCol col)[i]? =
      some (some ((presentVals col).sum / ((presentVals col).length : ℚ))) := by
  have hany : col.any (fun c => c.isNone) = true :=
    List.any_eq_true.mpr ⟨none, mem_of_getElem?_eq_some hmiss, rfl⟩
  unfold imputeNumericCol
  rw [if_pos hany, fillWith_getElem col _ hmiss, colMean_of_ne_nil hpres]

theorem betterMode_eq_or (L : List String) (a b : String) :
    betterMode L a b = a ∨ betterMode L a b = b := by
  unfold betterMode
  split
  · exact Or.inr rfl
  · split
    · exact Or.inr rfl
    · exact Or.inl rfl

theorem betterMode_count_le (L : List String) (a b : String) :
    countVal L a ≤ countVal L (betterMode L a b) ∧
      countVal L b ≤ countVal L (betterMode L a b) := by
  unfold betterMode
  split
  · next hlt => exact ⟨le_of_lt hlt, le_refl _⟩
  · next hnlt =>
    split
    · next heq => exact ⟨le_of_eq heq.1, le_refl _⟩
    · exact ⟨le_refl _, by omega⟩

theorem foldl_betterMode_mem (L : List String) :
    ∀ (l : List String) (acc : String), l.foldl (betterMode L) acc ∈ acc :: l := by
  intro l
  induction l with
  | nil => intro acc; exact List.mem_cons_self _ _
  | cons y t ih =>
    intro acc
    simp only [List.foldl_cons]
    have hmem := ih (betterMode L acc y)
    rcases List.mem_cons.mp hmem with h | h
    · rcases betterMode_eq_or L acc y with he | he
      · rw [h, he]
        exact List.mem_cons_self _ _
      · rw [h, he]
        exact List.mem_cons_of_mem _ (List.mem_cons_self _ _)
    · exact List.mem_cons_of_mem _ (List.mem_cons_of_mem _ h)

theorem foldl_betterMode_count (L : List String) :
    ∀ (l : List String) (acc : String), ∀ x ∈ acc :: l,
    countVal L x ≤ countVal L (l.foldl (betterMode L) acc) := by
  intro l
  induction l with
  | nil =>
    intro acc x hx
    rcases List.mem_cons.mp hx with rfl | hx
    · exact le_refl _
    · cases hx
  | cons y t ih =>
    intro acc x hx
    simp only [List.foldl_cons]
    have hacc : countVal L acc ≤ countVal L (betterMode L acc y) :=
      (betterMode_count_le L acc y).1
    have hy : countVal L y ≤ countVal L (betterMode L acc y) :=
      (betterMode_count_le L acc y).2
    have hstep : countVal L (betterMode L acc y) ≤
        countVal L (t.foldl (betterMode L) (betterMode L acc y)) :=
      ih (betterMode L acc y) _ (List.mem_cons_self _ _)
    rcases List.mem_cons.mp hx with rfl | hx
    · exact le_trans hacc hstep
    · rcases List.mem_cons.mp hx with rfl | hx
      · exact le_trans hy hstep
      · exact ih (betterMode L acc y) x (List.mem_cons_of_mem _ hx)

theorem colMode_spec {col : List (Option String)} (h : presentVals col ≠ []) :
    ∃ m, colMode col = some m ∧ m ∈ presentVals col ∧
      ∀ v ∈ presentVals col,
        countVal (presentVals col) v ≤ countVal (presentVals col) m := by
  cases hp : presentVals col with
  | nil => exact absurd hp h
  | cons v vs =>
    refine ⟨vs.foldl (betterMode (v :: vs)) v, ?_, ?_, ?_⟩
    · unfold colMode
      rw [hp]
    · exact foldl_betterMode_mem (v :: vs) vs v
    · exact fun x hx => foldl_betterMode_count (v :: vs) vs v x hx

theorem imputeCategoricalCol_getElem {col : List (Option String)} {j : Nat}
    (hmiss : col[j]? = some none) :
    (imputeCategoricalCol col)[j]? = some (colMode col) := by
  have hany : col.any (fun c => c.isNone) = true :=
    List.any_eq_true.mpr ⟨none, mem_of_getElem?_eq_some hmiss, rfl⟩
  unfold imputeCategoricalCol
  rw [if_pos hany, fillWith_getElem col _ hmiss]

theorem find_column_cons_nil {cols : List String} {p : String} {ps : List String}
    (hf : cols.filter (patMatches p) = []) :
    find_column_by_pattern cols (p :: ps) = find_column_by_pattern cols ps := by
  have h0 : find_column_by_pattern cols (p :: ps) =
      match cols.filter (patMatches p) with
      | [] => find_column_by_pattern cols ps
      | c :: _ => some c := rfl
  rw [h0, hf]

theorem find_column_cons_cons {cols : List String} {p c : String}
    {ps rest : List String} (hf : cols.filter (patMatches p) = c :: rest) :
    find_column_by_pattern cols (p :: ps) = some c := by
  have h0 : find_column_by_pattern cols (p :: ps) =
      match cols.filter (patMatches p) with
      | [] => find_column_by_pattern cols ps
      | c :: _ => some c := rfl
  rw [h0, hf]

theorem resolveRoleSpec_cons_no_match {cols : List String} {p : String}
    {ps : List String} (hany : cols.any (patMatches p) = false) :
    resolveRoleSpec cols (p :: ps) = resolveRoleSpec cols ps := by
  have h0 : resolveRoleSpec cols (p :: ps) =
      match (p :: ps).filter (fun q => cols.any (patMatches q)) with
      | [] => cols.head?
      | q :: _ => (cols.filter (patMatches q)).head? := rfl
  rw [h0, List.filter_cons_of_neg (by simp [hany])]
  rfl

theorem resolveRoleSpec_cons_match {cols : List String} {p : String}
    {ps : List String} (hany : cols.any (patMatches p) = true) :
    resolveRoleSpec cols (p :: ps) = (cols.filter (patMatches p)).head? := by
  have h0 : resolveRoleSpec cols (p :: ps) =
      match (p :: ps).filter (fun q => cols.any (patMatches q)) with
      | [] => cols.head?
      | q :: _ => (cols.filter (patMatches q)).head? := rfl
  rw [h0, List.filter_cons_of_pos (by simp [hany])]

theorem find_eq_resolveRoleSpec (cols : List String) :
    ∀ pats, find_column_by_pattern cols pats = resolveRoleSpec cols pats := by
  intro pats
  induction pats with
  | nil => rfl
  | cons p ps ih =>
    cases hf : cols.filter (patMatches p) with
    | nil =>
      have hany : cols.any (patMatches p) = false := by
        rw [← Bool.not_eq_true, List.any_eq_true]
        rintro ⟨c, hc, hpc⟩
        have : c ∈ cols.filter (patMatches p) := List.mem_filter.mpr ⟨hc, hpc⟩
        rw [hf] at this
        cases this
      rw [find_column_cons_nil hf, resolveRoleSpec_cons_no_match hany]
      exact ih
    | cons c rest =>
      have hany : cols.any (patMatches p) = true := by
        rw [List.any_eq_true]
        have : c ∈ cols.filter (patMatches p) := by
          rw [hf]
          exact List.mem_cons_self _ _
        exact ⟨c, (List.mem_filter.mp this).1, (List.mem_filter.mp this).2⟩
      rw [find_column_cons_cons hf, resolveRoleSpec_cons_match hany, hf]
      rfl

theorem find_column_mem {cols : List String} (h : cols ≠ []) :
    ∀ pats, ∃ c, find_column_by_pattern cols pats = some c ∧ c ∈ cols := by
  intro pats
  induction pats with
  | nil =>
    cases cols with
    | nil => exact absurd rfl h
    | cons x xs => exact ⟨x, rfl, List.mem_cons_self _ _⟩
  | cons p ps ih =>
    cases hf : cols.filter (patMatches p) with
    | nil =>
      rw [find_column_cons_nil hf]
      exact ih
    | cons c rest =>
      rw [find_column_cons_cons hf]
      refine ⟨c, rfl, ?_⟩
      have : c ∈ cols.filter (patMatches p) := by
        rw [hf]
        exact List.mem_cons_self _ _
      exact (List.mem_filter.mp this).1

theorem mainLoop_ok_keys {α : Type} (trainResult : String → Except PipelineError α) :
    ∀ (cs : List String) (acc ms : List (String × α)),
    mainLoop trainResult cs acc = Except.ok ms →
    ms.map Prod.fst = acc.map Prod.fst ++ cs := by
  intro cs
  induction cs with
  | nil =>
    intro acc ms h
    have hacc : acc = ms := Except.ok.inj h
    subst hacc
    simp
  | cons c cs ih =>
    intro acc ms h
    simp only [mainLoop] at h
    cases htr : trainResult c with
    | ok m =>
      rw [htr] at h
      have hrec := ih (acc ++ [(c, m)]) ms h
      rw [hrec, List.map_append]
      simp
    | error e =>
      rw [htr] at h
      cases h

theorem ffillAux_idem {α : Type} : ∀ (l : List (Option α)) (a : Option α),
    ffillAux a (ffillAux a l) = ffillAux a l := by
  intro l
  induction l with
  | nil => intro a; rfl
  | cons x xs ih =>
    intro a
    cases x with
    | none =>
      cases a with
      | none =>
        simp only [ffillAux]
        rw [ih]
      | some w =>
        simp only [ffillAux]
        rw [ih]
    | some v =>
      simp only [ffillAux]
      rw [ih]

theorem completeSales_ok {daily : List SalesRec} {g : List GridRow}
    (hok : completeSales daily = Except.ok g) :
    ∃ lo hi, listMin (daily.map (·.date)) = some lo ∧
      listMax (daily.map (·.date)) = some hi ∧
      g = buildGrid daily
        (crossPairs (dateRange lo hi) (uniqueFirst (daily.map (·.category)))) := by
  unfold completeSales at hok
  cases hmin : listMin (daily.map (·.date)) with
  | none =>
    rw [hmin] at hok
    cases hmax : listMax (daily.map (·.date)) with
    | none => rw [hmax] at hok; cases hok
    | some hi => rw [hmax] at hok; cases hok
  | some lo =>
    rw [hmin] at hok
    cases hmax : listMax (daily.map (·.date)) with
    | none => rw [hmax] at hok; cases hok
    | some hi =>
      rw [hmax] at hok
      exact ⟨lo, hi, rfl, rfl, (Except.ok.inj hok).symm⟩

theorem gridPairs_lastDate {lo hi : Nat} (hlo : lo ≤ hi) {cats : List String}
    (hcats : cats ≠ []) :
    listMax ((gridPairs lo hi cats).map Prod.fst) = some hi := by
  apply listMax_complete
  · obtain ⟨c, hc⟩ : ∃ c, c ∈ cats := by
      cases cats with
      | nil => exact absurd rfl hcats
      | cons c cs => exact ⟨c, List.mem_cons_self _ _⟩
    refine List.mem_map.mpr ⟨(hi, c), mem_crossPairs.mpr ⟨?_, hc⟩, rfl⟩
    exact mem_dateRangeAux.mpr ⟨hlo, by omega⟩
  · intro x hx
    obtain ⟨p, hp, rfl⟩ := List.mem_map.mp hx
    have hb := mem_dateRangeAux.mp (mem_crossPairs.mp hp).1
    omega

theorem ffill_grid_cell_val (ext : Nat → Option ℚ) {lo hi : Nat}
    {cats : List String} (hcats : cats ≠ []) {p : Nat × String} {v : Option ℚ}
    (hmem : (p, v) ∈ (gridPairs lo hi cats).zip
      (ffill (extCells ext (gridPairs lo hi cats)))) :
    v = accFold ext none (dateRangeAux lo (p.1 + 1 - lo)) ∧
      lo ≤ p.1 ∧ p.1 ≤ hi ∧ p.2 ∈ cats := by
  have hre : ffill (extCells ext (gridPairs lo hi cats)) =
      ffillBlocks ext cats.length none (dateRangeAux lo (hi + 1 - lo)) :=
    ffillAux_extCells ext hcats (dateRangeAux lo (hi + 1 - lo)) none
  rw [hre] at hmem
  obtain ⟨⟨h1, h2, h3⟩, hv⟩ :=
    zip_block_val ext cats (hi + 1 - lo) lo none hmem
  exact ⟨hv, h1, by omega, h3⟩

theorem forecastExtVal_last_known (ext : Nat → Option ℚ) {lo hi : Nat}
    {cats : List String} (hcats : cats ≠ []) (hlo : lo ≤ hi)
    (hknown : ∃ d ∈ dateRange lo hi, (ext d).isSome = true) :
    ∃ dk, lo ≤ dk ∧ dk ≤ hi ∧ (ext dk).isSome = true ∧
      (∀ e, dk < e → e ≤ hi → ext e = none) ∧
      some (forecastExtVal (ffill (extCells ext (gridPairs lo hi cats)))) = ext dk := by
  obtain ⟨d0, hd0, hs0⟩ := hknown
  have hksne : (dateRange lo hi).filter (fun d => (ext d).isSome) ≠ [] :=
    List.ne_nil_of_mem (List.mem_filter.mpr ⟨hd0, hs0⟩)
  cases hmax : listMax ((dateRange lo hi).filter (fun d => (ext d).isSome)) with
  | none => exact absurd (listMax_eq_none_iff.mp hmax) hksne
  | some dk =>
    obtain ⟨hdkmem, hdkmax⟩ := listMax_spec hmax
    have hdkr := List.mem_filter.mp hdkmem
    have hdkb := mem_dateRangeAux.mp hdkr.1
    have hdklo : lo ≤ dk := hdkb.1
    have hdkhi : dk ≤ hi := by omega
    have hafter : ∀ e, dk < e → e ≤ hi → ext e = none := by
      intro e he1 he2
      cases her : ext e with
      | none => rfl
      | some w =>
        have hemem : e ∈ (dateRange lo hi).filter (fun d => (ext d).isSome) :=
          List.mem_filter.mpr ⟨mem_dateRangeAux.mpr ⟨by omega, by omega⟩, by simp [her]⟩
        have := hdkmax e hemem
        omega
    obtain ⟨w, hw⟩ := Option.isSome_iff_exists.mp hdkr.2
    have hacc : accFold ext none (dateRangeAux lo (hi + 1 - lo)) = some w :=
      accFold_last_known ext hdklo hdkhi hw hafter none
    have hk1 : 1 ≤ cats.length := by
      cases cats with
      | nil => exact absurd rfl hcats
      | cons c cs => simp
    have hrne : dateRangeAux lo (hi + 1 - lo) ≠ [] := by
      apply List.length_pos.mp
      rw [dateRangeAux_length]
      omega
    have hre : ffill (extCells ext (gridPairs lo hi cats)) =
        ffillBlocks ext cats.length none (dateRangeAux lo (hi + 1 - lo)) :=
      ffillAux_extCells ext hcats (dateRangeAux lo (hi + 1 - lo)) none
    have hlast : (ffill (extCells ext (gridPairs lo hi cats))).getLast? =
        some (some w) := by
      rw [hre, ffillBlocks_getLast ext hk1 _ none hrne, hacc]
    have hfm := filterMap_id_getLast hlast
    refine ⟨dk, hdklo, hdkhi, hdkr.2, hafter, ?_⟩
    rw [hw]
    unfold forecastExtVal
    rw [hfm]

theorem uniqueFirst_length (l : List String) :
    (uniqueFirst l).length = l.toFinset.card := by
  have h1 : (uniqueFirst l).toFinset = l.toFinset := by
    apply Finset.ext
    intro x
    simp [List.mem_toFinset, mem_uniqueFirst]
  calc (uniqueFirst l).length = (uniqueFirst l).toFinset.card :=
        (List.toFinset_card_of_nodup (uniqueFirst_nodup l)).symm
    _ = l.toFinset.card := by rw [h1]

theorem ffillAux_none_all {α : Type} :
    ∀ l : List (Option α), (∀ x ∈ l, x = none) → ffillAux none l = l := by
  intro l
  induction l with
  | nil => intro _; rfl
  | cons x xs ih =>
    intro h
    have hx : x = none := h x (List.mem_cons_self _ _)
    subst hx
    simp only [ffillAux]
    rw [ih fun y hy => h y (List.mem_cons_of_mem _ hy)]

theorem filterMap_id_nil {α : Type} :
    ∀ l : List (Option α), (∀ x ∈ l, x = none) → l.filterMap id = [] := by
  intro l
  induction l with
  | nil => intro _; rfl
  | cons x xs ih =>
    intro h
    have hx : x = none := h x (List.mem_cons_self _ _)
    subst hx
    rw [show List.filterMap id (none :: xs) = List.filterMap id xs from rfl]
    exact ih fun y hy => h y (List.mem_cons_of_mem _ hy)

/-! ## Claim theorems -/

/-- C1 (counterexample): the grid construction on the empty sales set does
not raise an explicit EmptyInputError: no such error class exists in the
code, and the failure that does occur is the generic value error pandas
raises when `pd.date_range` receives the NaT min/max of an empty column.
This refutes the claim that `complete(empty)` raises EmptyInputError. -/
theorem C1_empty_input_cex :
    completeSales [] ≠ Except.error PipelineError.emptyInputError := by
  intro h
  have h2 : PipelineError.valueError "Neither start nor end can be NaT" =
      PipelineError.emptyInputError := Except.error.inj h
  cases h2

/-- C1 (amended): on the empty SalesRecord collection the grid-construction
step never returns a zero-row grid: it fails at the date-range computation
with the generic pandas value error for NaT bounds (there is no explicit
EmptyInputError anywhere in the code). -/
theorem C1_empty_input_fails :
    completeSales [] =
      Except.error (PipelineError.valueError "Neither start nor end can be NaT") := rfl

/-- C2 (code bug at the failing input): with one external-factor column and
the two trained categories handgun and rifle, the feature matrices passed to
`model.predict` across the prediction loop are the training schema for the
first category but the training schema plus the handgun prediction column
for the second, because `X_forecast = forecast_df.drop(date)` is recomputed
inside the loop after `forecast_df[category] = y_forecast` has mutated the
frame.  The second category's feature matrix therefore depends on the
categories predicted before it, contradicting the per-category schema
contract (sklearn rejects the extra column at predict time). -/
theorem C2_forecast_loop_bug :
    forecastLoopCols (forecastBaseCols ["political_climate"]) ["handgun", "rifle"] =
      [trainingFeatureCols ["political_climate"],
        trainingFeatureCols ["political_climate"] ++ ["handgun"]] ∧
    trainingFeatureCols ["political_climate"] ++ ["handgun"] ≠
      trainingFeatureCols ["political_climate"] := by
  constructor
  · rfl
  · decide

/-- C5 (counterexample): on a table with no columns, the resolver returns no
column at all (the fallback `df.columns[0]` raises an IndexError, modelled
as `none`), so the claim that for every table it returns a column present in
the table's columns fails at the zero-column table. -/
theorem C5_resolver_cex :
    ¬ ∃ c, find_column_by_pattern [] ["date"] = some c ∧ c ∈ ([] : List String) := by
  rintro ⟨c, -, hc⟩
  cases hc

/-- C5 (amended): for every table with at least one column and every ordered
pattern list, the resolver returns a column present in the table's columns,
and the returned column is exactly the one the spec describes: the first
column (in original order) matching the first pattern that matches any
column, and the table's first column when no pattern matches. -/
theorem C5_resolver_total (cols pats : List String) (h : cols ≠ []) :
    ∃ c, find_column_by_pattern cols pats = some c ∧ c ∈ cols ∧
      resolveRoleSpec cols pats = some c := by
  obtain ⟨c, hc, hmem⟩ := find_column_mem h pats
  exact ⟨c, hc, hmem, find_eq_resolveRoleSpec cols pats ▸ hc⟩

theorem C5_resolver_total_witness :
    (["customer_id", "transaction_date", "product_category"] ≠ ([] : List String)) ∧
    ∃ c, find_column_by_pattern
        ["customer_id", "transaction_date", "product_category"] ["date", "time"] =
          some c ∧
      c ∈ ["customer_id", "transaction_date", "product_category"] ∧
      resolveRoleSpec
        ["customer_id", "transaction_date", "product_category"] ["date", "time"] =
          some c :=
  ⟨by decide, C5_resolver_total _ _ (by decide)⟩

/-- C8: forward-fill is idempotent: applying the forward-fill operation to a
column that has already been forward-filled leaves it unchanged, for every
column of optional values. -/
theorem C8_ffill_idempotent {α : Type} (l : List (Option α)) :
    ffill (ffill l) = ffill l :=
  ffillAux_idem l none

/-- C10 (counterexample): a dataset observing the five configured
categories plus a sixth category bow (each category's grid slice spanning
dates 0-5, so every configured slice is non-empty and training completes)
makes `main` train and persist models for exactly the configured
PRODUCT_CATEGORIES — the observed category bow is never trained — so the
trained key set differs from the observed distinct-category set and the
configured list, not the data, is the source of the fan-out. -/
theorem C10_config_fanout_cex :
    ∃ ms : List (String × Nat),
      mainModels (fun _ => Except.ok (0 : Nat)) = Except.ok ms ∧
      ms.map Prod.fst ≠
        uniqueFirst (([⟨0, "accessories", 1⟩, ⟨1, "ammunition", 1⟩,
          ⟨2, "handgun", 1⟩, ⟨3, "rifle", 1⟩, ⟨4, "shotgun", 1⟩,
          ⟨5, "bow", 1⟩] : List SalesRec).map (·.category)) := by
  refine ⟨[("accessories", 0), ("ammunition", 0), ("handgun", 0), ("rifle", 0),
    ("shotgun", 0)], rfl, ?_⟩
  decide

/-- C10 (amended): the training fan-out of `main` iterates the configured
PRODUCT_CATEGORIES list, not the observed categories: whenever the run
completes, the trained-and-persisted key set is exactly the configured
list regardless of the data; a configured category absent from the data
has an empty feature slice in the grid, so its `train_test_split` raises
and aborts the un-guarded loop (such a category is never synthesized into
a trained model).  The dense grid's category set, by contrast, is exactly
the distinct categories observed in the sales data. -/
theorem C10_fanout_and_grid_categories {α : Type}
    (trainResult : String → Except PipelineError α)
    (daily : List SalesRec) (g : List GridRow)
    (hok : completeSales daily = Except.ok g) :
    (∀ ms, mainModels trainResult = Except.ok ms →
      ms.map Prod.fst = PRODUCT_CATEGORIES) ∧
    (∀ cat, cat ∉ daily.map (·.category) →
      g.filter (fun row => row.category == cat) = []) ∧
    (∀ row ∈ g, row.category ∈ daily.map (·.category)) ∧
    (∀ r ∈ daily, r.category ∈ g.map (·.category)) := by
  obtain ⟨lo, hi, hmin, hmax, rfl⟩ := completeSales_ok hok
  refine ⟨?_, ?_, ?_, ?_⟩
  · intro ms hms
    have h := mainLoop_ok_keys trainResult PRODUCT_CATEGORIES [] ms hms
    simpa using h
  · intro cat hcat
    rw [List.filter_eq_nil_iff]
    intro row hrow hbeq
    obtain ⟨p, hp, hjoin⟩ := mem_buildGrid.mp hrow
    obtain ⟨-, h2⟩ := mem_joinRows_key hjoin
    have hobs : row.category ∈ daily.map (·.category) := by
      rw [h2]
      exact mem_uniqueFirst.mp (mem_crossPairs.mp hp).2
    rw [beq_iff_eq.mp hbeq] at hobs
    exact hcat hobs
  · intro row hrow
    obtain ⟨p, hp, hjoin⟩ := mem_buildGrid.mp hrow
    obtain ⟨-, h2⟩ := mem_joinRows_key hjoin
    have hc := (mem_crossPairs.mp hp).2
    rw [h2]
    exact mem_uniqueFirst.mp hc
  · intro r hr
    have hlo := (listMin_spec hmin).2 r.date (List.mem_map.mpr ⟨r, hr, rfl⟩)
    have hhi := (listMax_spec hmax).2 r.date (List.mem_map.mpr ⟨r, hr, rfl⟩)
    have hd : r.date ∈ dateRange lo hi :=
      mem_dateRangeAux.mpr ⟨hlo, by omega⟩
    have hc : r.category ∈ uniqueFirst (daily.map (·.category)) :=
      mem_uniqueFirst.mpr (List.mem_map.mpr ⟨r, hr, rfl⟩)
    have hp : ((r.date, r.category) : Nat × String) ∈
        crossPairs (dateRange lo hi) (uniqueFirst (daily.map (·.category))) :=
      mem_crossPairs.mpr ⟨hd, hc⟩
    obtain ⟨row, hrow⟩ := List.exists_mem_of_ne_nil _
      (joinRows_ne_nil daily r.date r.category)
    refine List.mem_map.mpr ⟨row, mem_buildGrid.mpr ⟨(r.date, r.category), hp, hrow⟩, ?_⟩
    exact (mem_joinRows_key hrow).2

theorem C10_fanout_and_grid_categories_witness :
    completeSales [⟨0, "rifle", 2⟩] = Except.ok [⟨0, "rifle", 2⟩] ∧
    ((∀ ms, mainModels (fun c => if c = "rifle" then Except.ok (0 : Nat)
        else Except.error (PipelineError.valueError
          "train_test_split on an empty category slice")) = Except.ok ms →
      ms.map Prod.fst = PRODUCT_CATEGORIES) ∧
    (∀ cat, cat ∉ ([⟨0, "rifle", 2⟩] : List SalesRec).map (·.category) →
      ([⟨0, "rifle", 2⟩] : List GridRow).filter
        (fun row => row.category == cat) = []) ∧
    (∀ row ∈ ([⟨0, "rifle", 2⟩] : List GridRow),
      row.category ∈ ([⟨0, "rifle", 2⟩] : List SalesRec).map (·.category)) ∧
    (∀ r ∈ ([⟨0, "rifle", 2⟩] : List SalesRec),
      r.category ∈ ([⟨0, "rifle", 2⟩] : List GridRow).map (·.category))) :=
  ⟨rfl, C10_fanout_and_grid_categories _ _ _ rfl⟩

/-- C3: for every non-empty aggregated SalesRecord set with its uniqueness
invariant (at most one record per (date, category)), the completed dense
grid has exactly (max date - min date + 1) x (number of distinct observed
categories) rows; every record's (date, category) appears in exactly one
grid row, carrying the record's aggregated quantity; and every grid row
with no matching record has quantity_sold = 0. -/
theorem C3_dense_grid (daily : List SalesRec) (hne : daily ≠ [])
    (huniq : (daily.map fun r => (r.date, r.category)).Nodup) :
    ∃ lo hi g, listMin (daily.map (·.date)) = some lo ∧
      listMax (daily.map (·.date)) = some hi ∧
      completeSales daily = Except.ok g ∧
      g.length = (hi - lo + 1) * (daily.map (·.category)).toFinset.card ∧
      (∀ r ∈ daily,
        g.filter (fun row => row.date == r.date && row.category == r.category) =
          [⟨r.date, r.category, r.quantity_sold⟩]) ∧
      (∀ row ∈ g,
        (∀ r ∈ daily, ¬(r.date = row.date ∧ r.category = row.category)) →
        row.quantity_sold = 0) := by
  have hmapne : daily.map (·.date) ≠ [] := by
    intro h
    exact hne (List.map_eq_nil_iff.mp h)
  obtain ⟨lo, hmin⟩ : ∃ lo, listMin (daily.map (·.date)) = some lo := by
    cases h : listMin (daily.map (·.date)) with
    | none => exact absurd (listMin_eq_none_iff.mp h) hmapne
    | some lo => exact ⟨lo, rfl⟩
  obtain ⟨hi, hmax⟩ : ∃ hi, listMax (daily.map (·.date)) = some hi := by
    cases h : listMax (daily.map (·.date)) with
    | none => exact absurd (listMax_eq_none_iff.mp h) hmapne
    | some hi => exact ⟨hi, rfl⟩
  obtain ⟨r0, hr0⟩ := List.exists_mem_of_ne_nil _ hne
  have hlo0 : lo ≤ r0.date := (listMin_spec hmin).2 _ (List.mem_map.mpr ⟨r0, hr0, rfl⟩)
  have hhi0 : r0.date ≤ hi := (listMax_spec hmax).2 _ (List.mem_map.mpr ⟨r0, hr0, rfl⟩)
  have hlohi : lo ≤ hi := le_trans hlo0 hhi0
  refine ⟨lo, hi,
    buildGrid daily (crossPairs (dateRange lo hi) (uniqueFirst (daily.map (·.category)))),
    hmin, hmax, ?_, ?_, ?_, ?_⟩
  · unfold completeSales
    rw [hmin, hmax]
  · rw [buildGrid_length _ huniq, crossPairs_length]
    rw [show (dateRange lo hi).length = hi + 1 - lo from by
      rw [dateRange, dateRangeAux_length]]
    rw [uniqueFirst_length]
    congr 1
    omega
  · intro r hr
    have hrd1 : lo ≤ r.date := (listMin_spec hmin).2 _ (List.mem_map.mpr ⟨r, hr, rfl⟩)
    have hrd2 : r.date ≤ hi := (listMax_spec hmax).2 _ (List.mem_map.mpr ⟨r, hr, rfl⟩)
    have hd : r.date ∈ dateRange lo hi := mem_dateRangeAux.mpr ⟨hrd1, by omega⟩
    have hc : r.category ∈ uniqueFirst (daily.map (·.category)) :=
      mem_uniqueFirst.mpr (List.mem_map.mpr ⟨r, hr, rfl⟩)
    rw [buildGrid_filter, crossPairs_filter_eq_singleton hd hc
      (dateRangeAux_nodup _ _) (uniqueFirst_nodup _)]
    show joinRows daily r.date r.category ++ buildGrid daily [] = _
    rw [joinRows_self hr huniq]
    rfl
  · intro row hrow h0
    obtain ⟨p, hp, hjoin⟩ := mem_buildGrid.mp hrow
    obtain ⟨hd, hc⟩ := mem_joinRows_key hjoin
    have hjr : joinRows daily p.1 p.2 = [⟨p.1, p.2, 0⟩] := by
      apply joinRows_of_no_match
      intro r hr hcon
      exact h0 r hr ⟨hcon.1.trans hd.symm, hcon.2.trans hc.symm⟩
    rw [hjr] at hjoin
    rw [List.mem_singleton.mp hjoin]

theorem C3_dense_grid_witness :
    (([⟨1, "ammo", 5⟩, ⟨3, "rifle", 2⟩] : List SalesRec) ≠ []) ∧
    ((([⟨1, "ammo", 5⟩, ⟨3, "rifle", 2⟩] : List SalesRec).map
      fun r => (r.date, r.category)).Nodup) ∧
    (∃ lo hi g,
      listMin (([⟨1, "ammo", 5⟩, ⟨3, "rifle", 2⟩] : List SalesRec).map (·.date)) =
        some lo ∧
      listMax (([⟨1, "ammo", 5⟩, ⟨3, "rifle", 2⟩] : List SalesRec).map (·.date)) =
        some hi ∧
      completeSales [⟨1, "ammo", 5⟩, ⟨3, "rifle", 2⟩] = Except.ok g ∧
      g.length = (hi - lo + 1) *
        (([⟨1, "ammo", 5⟩, ⟨3, "rifle", 2⟩] : List SalesRec).map
          (·.category)).toFinset.card ∧
      (∀ r ∈ ([⟨1, "ammo", 5⟩, ⟨3, "rifle", 2⟩] : List SalesRec),
        g.filter (fun row => row.date == r.date && row.category == r.category) =
          [⟨r.date, r.category, r.quantity_sold⟩]) ∧
      (∀ row ∈ g,
        (∀ r ∈ ([⟨1, "ammo", 5⟩, ⟨3, "rifle", 2⟩] : List SalesRec),
          ¬(r.date = row.date ∧ r.category = row.category)) →
        row.quantity_sold = 0)) :=
  ⟨by decide, by decide, C3_dense_grid _ (by decide) (by decide)⟩

/-- C4: after the feature build, a grid cell of an external-factor column
whose date has no external-factor value holds the value of the nearest
preceding date that has one; cells dated before the first known value
remain unresolved (`none`); and any two grid rows with the same date carry
identical external-factor values, whatever their categories. -/
theorem C4_ffill_grid (ext : Nat → Option ℚ) (lo hi : Nat)
    (cats : List String) (hcats : cats ≠ []) (p : Nat × String) (v : Option ℚ)
    (hmem : (p, v) ∈ (gridPairs lo hi cats).zip
      (ffill (extCells ext (gridPairs lo hi cats)))) :
    (ext p.1 = none →
      ((∀ d, lo ≤ d → d < p.1 → ext d = none) → v = none) ∧
      (∀ d w, lo ≤ d → d < p.1 → ext d = some w →
        (∀ e, d < e → e < p.1 → ext e = none) → v = some w)) ∧
    (∀ q u, (q, u) ∈ (gridPairs lo hi cats).zip
      (ffill (extCells ext (gridPairs lo hi cats))) → q.1 = p.1 → u = v) := by
  obtain ⟨hv, hplo, hphi, -⟩ := ffill_grid_cell_val ext hcats hmem
  refine ⟨fun hpnone => ⟨fun hall => ?_, fun d w hdlo hdlt hdw hbetween => ?_⟩,
    fun q u hq hqp => ?_⟩
  · rw [hv]
    apply accFold_all_none
    intro x hx
    have hb := mem_dateRangeAux.mp hx
    by_cases hxp : x = p.1
    · rw [hxp]; exact hpnone
    · exact hall x hb.1 (by omega)
  · rw [hv]
    refine accFold_last_known ext hdlo (by omega) hdw (fun e he1 he2 => ?_) none
    by_cases hep : e = p.1
    · rw [hep]; exact hpnone
    · exact hbetween e he1 (by omega)
  · obtain ⟨hu, -, -, -⟩ := ffill_grid_cell_val ext hcats hq
    rw [hu, hv, hqp]

theorem C4_ffill_grid_witness :
    ((["rifle", "ammo"] : List String) ≠ []) ∧
    (((12, "rifle"), some (3 : ℚ)) ∈
      (gridPairs 10 12 ["rifle", "ammo"]).zip
        (ffill (extCells (fun d => if d = 11 then some (3 : ℚ) else none)
          (gridPairs 10 12 ["rifle", "ammo"])))) ∧
    (((fun d => if d = 11 then some (3 : ℚ) else none) (12, "rifle").1 = none →
      ((∀ d, 10 ≤ d → d < (12, "rifle").1 →
        (fun d => if d = 11 then some (3 : ℚ) else none) d = none) →
        some (3 : ℚ) = none) ∧
      (∀ d w, 10 ≤ d → d < (12, "rifle").1 →
        (fun d => if d = 11 then some (3 : ℚ) else none) d = some w →
        (∀ e, d < e → e < (12, "rifle").1 →
          (fun d => if d = 11 then some (3 : ℚ) else none) e = none) →
        some (3 : ℚ) = some w)) ∧
    (∀ q u, (q, u) ∈ (gridPairs 10 12 ["rifle", "ammo"]).zip
        (ffill (extCells (fun d => if d = 11 then some (3 : ℚ) else none)
          (gridPairs 10 12 ["rifle", "ammo"]))) →
      q.1 = (12, "rifle").1 → u = some (3 : ℚ))) :=
  ⟨by decide, by decide,
    C4_ffill_grid (fun d => if d = 11 then some (3 : ℚ) else none) 10 12
      ["rifle", "ammo"] (by decide) (12, "rifle") (some 3) (by decide)⟩

/-- C6: in the trainer's feature-preparation step, a missing value in a
numeric column is replaced by the mean of that column computed over the
selected category's rows only, and a missing value in a non-numeric column
by a mode (a most frequent value) of that column over the selected
category's rows only. -/
theorem C6_per_category_imputation (rows : List (String × Option ℚ))
    (crows : List (String × Option String)) (cat : String) (i j : Nat)
    (hmiss : (categorySlice rows cat)[i]? = some none)
    (hpres : presentVals (categorySlice rows cat) ≠ [])
    (hcmiss : (categorySlice crows cat)[j]? = some none)
    (hcpres : presentVals (categorySlice crows cat) ≠ []) :
    (imputeNumericCol (categorySlice rows cat))[i]? =
      some (some ((presentVals (categorySlice rows cat)).sum /
        ((presentVals (categorySlice rows cat)).length : ℚ))) ∧
    ∃ m, (imputeCategoricalCol (categorySlice crows cat))[j]? = some (some m) ∧
      m ∈ presentVals (categorySlice crows cat) ∧
      ∀ v ∈ presentVals (categorySlice crows cat),
        countVal (presentVals (categorySlice crows cat)) v ≤
          countVal (presentVals (categorySlice crows cat)) m := by
  refine ⟨imputeNumericCol_getElem hmiss hpres, ?_⟩
  obtain ⟨m, hm, hmem, hmax⟩ := colMode_spec hcpres
  refine ⟨m, ?_, hmem, hmax⟩
  rw [imputeCategoricalCol_getElem hcmiss, hm]

theorem C6_per_category_imputation_witness :
    ((categorySlice [("rifle", some (1 : ℚ)), ("rifle", some 2), ("rifle", some 3),
        ("rifle", some 4), ("rifle", some 5), ("rifle", some 6), ("rifle", some 7),
        ("rifle", some 8), ("rifle", some 9), ("rifle", none),
        ("ammo", some 100)] "rifle")[9]? = some none) ∧
    (presentVals (categorySlice [("rifle", some (1 : ℚ)), ("rifle", some 2),
        ("rifle", some 3), ("rifle", some 4), ("rifle", some 5), ("rifle", some 6),
        ("rifle", some 7), ("rifle", some 8), ("rifle", some 9), ("rifle", none),
        ("ammo", some 100)] "rifle") ≠ []) ∧
    ((categorySlice [("rifle", some "a"), ("rifle", some "b"), ("rifle", some "b"),
        ("rifle", none), ("ammo", some "z")] "rifle")[3]? = some none) ∧
    (presentVals (categorySlice [("rifle", some "a"), ("rifle", some "b"),
        ("rifle", some "b"), ("rifle", none), ("ammo", some "z")] "rifle") ≠ []) ∧
    ((imputeNumericCol (categorySlice [("rifle", some (1 : ℚ)), ("rifle", some 2),
        ("rifle", some 3), ("rifle", some 4), ("rifle", some 5), ("rifle", some 6),
        ("rifle", some 7), ("rifle", some 8), ("rifle", some 9), ("rifle", none),
        ("ammo", some 100)] "rifle"))[9]? =
      some (some ((presentVals (categorySlice [("rifle", some (1 : ℚ)),
        ("rifle", some 2), ("rifle", some 3), ("rifle", some 4), ("rifle", some 5),
        ("rifle", some 6), ("rifle", some 7), ("rifle", some 8), ("rifle", some 9),
        ("rifle", none), ("ammo", some 100)] "rifle")).sum /
        ((presentVals (categorySlice [("rifle", some (1 : ℚ)), ("rifle", some 2),
        ("rifle", some 3), ("rifle", some 4), ("rifle", some 5), ("rifle", some 6),
        ("rifle", some 7), ("rifle", some 8), ("rifle", some 9), ("rifle", none),
        ("ammo", some 100)] "rifle")).length : ℚ))) ∧
    ∃ m, (imputeCategoricalCol (categorySlice [("rifle", some "a"),
        ("rifle", some "b"), ("rifle", some "b"), ("rifle", none),
        ("ammo", some "z")] "rifle"))[3]? = some (some m) ∧
      m ∈ presentVals (categorySlice [("rifle", some "a"), ("rifle", some "b"),
        ("rifle", some "b"), ("rifle", none), ("ammo", some "z")] "rifle") ∧
      ∀ v ∈ presentVals (categorySlice [("rifle", some "a"), ("rifle", some "b"),
        ("rifle", some "b"), ("rifle", none), ("ammo", some "z")] "rifle"),
        countVal (presentVals (categorySlice [("rifle", some "a"), ("rifle", some "b"),
          ("rifle", some "b"), ("rifle", none), ("ammo", some "z")] "rifle")) v ≤
        countVal (presentVals (categorySlice [("rifle", some "a"), ("rifle", some "b"),
          ("rifle", some "b"), ("rifle", none), ("ammo", some "z")] "rifle")) m) :=
  ⟨by decide, by decide, by decide, by decide,
    C6_per_category_imputation _ _ "rifle" 9 3
      (by decide) (by decide) (by decide) (by decide)⟩

/-- C7: for the dense grid over [lo, hi] (whose last observed date is hi)
and any horizon h ≥ 1, the forecast frame has exactly h rows whose dates
are the h consecutive days after hi; each row's six calendar features are
derived from that row's own future date; and every row's external-factor
cell holds the single most recent known value of the factor, constant
across all h rows. -/
theorem C7_forecast_structure (ext : Nat → Option ℚ) (lo hi h : Nat)
    (cats : List String) (hcats : cats ≠ []) (hlo : lo ≤ hi) (hh : 1 ≤ h)
    (hknown : ∃ d ∈ dateRange lo hi, (ext d).isSome = true) :
    listMax ((gridPairs lo hi cats).map Prod.fst) = some hi ∧
    (generateForecastRows hi h (ffill (extCells ext (gridPairs lo hi cats)))).length = h ∧
    (generateForecastRows hi h (ffill (extCells ext (gridPairs lo hi cats)))).map
      (·.date) = dateRangeAux (hi + 1) h ∧
    (∀ r ∈ generateForecastRows hi h (ffill (extCells ext (gridPairs lo hi cats))),
      r.feats = calFeatures r.date) ∧
    (∃ dk, lo ≤ dk ∧ dk ≤ hi ∧ (ext dk).isSome = true ∧
      (∀ e, dk < e → e ≤ hi → ext e = none) ∧
      ∀ r ∈ generateForecastRows hi h (ffill (extCells ext (gridPairs lo hi cats))),
        some r.extVal = ext dk) := by
  refine ⟨gridPairs_lastDate hlo hcats, ?_, ?_, ?_, ?_⟩
  · simp [generateForecastRows, forecastDates, dateRangeAux_length]
  · simp only [generateForecastRows, List.map_map]
    rw [show ((fun r : ForecastRow => r.date) ∘ fun d =>
      (⟨d, calFeatures d, forecastExtVal (ffill (extCells ext (gridPairs lo hi cats)))⟩
        : ForecastRow)) = fun d => d from rfl]
    simp [forecastDates]
  · intro r hr
    obtain ⟨d, -, rfl⟩ := List.mem_map.mp hr
    rfl
  · obtain ⟨dk, h1, h2, h3, h4, h5⟩ := forecastExtVal_last_known ext hcats hlo hknown
    refine ⟨dk, h1, h2, h3, h4, fun r hr => ?_⟩
    obtain ⟨d, -, rfl⟩ := List.mem_map.mp hr
    exact h5

theorem C7_forecast_structure_witness :
    ((["rifle"] : List String) ≠ []) ∧ 10 ≤ 12 ∧ 1 ≤ 5 ∧
    (∃ d ∈ dateRange 10 12,
      ((fun d => if d = 11 then some (3 : ℚ) else none) d).isSome = true) ∧
    (listMax ((gridPairs 10 12 ["rifle"]).map Prod.fst) = some 12 ∧
    (generateForecastRows 12 5
      (ffill (extCells (fun d => if d = 11 then some (3 : ℚ) else none)
        (gridPairs 10 12 ["rifle"])))).length = 5 ∧
    (generateForecastRows 12 5
      (ffill (extCells (fun d => if d = 11 then some (3 : ℚ) else none)
        (gridPairs 10 12 ["rifle"])))).map (·.date) = dateRangeAux 13 5 ∧
    (∀ r ∈ generateForecastRows 12 5
      (ffill (extCells (fun d => if d = 11 then some (3 : ℚ) else none)
        (gridPairs 10 12 ["rifle"]))),
      r.feats = calFeatures r.date) ∧
    (∃ dk, 10 ≤ dk ∧ dk ≤ 12 ∧
      ((fun d => if d = 11 then some (3 : ℚ) else none) dk).isSome = true ∧
      (∀ e, dk < e → e ≤ 12 →
        (fun d => if d = 11 then some (3 : ℚ) else none) e = none) ∧
      ∀ r ∈ generateForecastRows 12 5
        (ffill (extCells (fun d => if d = 11 then some (3 : ℚ) else none)
          (gridPairs 10 12 ["rifle"]))),
        some r.extVal = (fun d => if d = 11 then some (3 : ℚ) else none) dk)) :=
  ⟨by decide, by decide, by decide, ⟨11, by decide, by decide⟩,
    C7_forecast_structure (fun d => if d = 11 then some (3 : ℚ) else none)
      10 12 5 ["rifle"] (by decide) (by decide) (by decide)
      ⟨11, by decide, by decide⟩⟩

/-- C9 (counterexample): an external factor that is unresolved everywhere
(no known value at any grid date) is silently replaced by the constant 0 at
the forecast stage: the last-value extraction defaults to 0 when the column
has no non-null entry.  This refutes the claim that unresolved values are
never silently replaced by zero anywhere in the pipeline. -/
theorem C9_forecast_zero_cex :
    forecastExtVal (ffill (extCells (fun _ => (none : Option ℚ))
      (gridPairs 0 1 ["rifle"]))) = 0 := rfl

/-- C9 (amended): unresolved external-factor cells are never zero-filled in
the feature build (a cell whose date and all earlier grid dates have no
known value stays missing); at the training boundary missing values are
resolved by the declared imputation — slice mean for numeric columns and a
slice mode for categorical columns whose slice has at least one present
value (an all-null categorical column is outside this guarantee: the
code's `mode()[0]` raises there); in the forecast stage a factor with at
least one known value receives its most recent known value (the value at
the greatest in-range date with one, no later in-range date being known) —
but a factor with no known value at all is replaced by the constant 0
there. -/
theorem C9_unresolved_handling (ext : Nat → Option ℚ) (lo hi : Nat)
    (cats : List String) (hcats : cats ≠ []) (hlo : lo ≤ hi) :
    (∀ p v, (p, v) ∈ (gridPairs lo hi cats).zip
        (ffill (extCells ext (gridPairs lo hi cats))) →
      (∀ d, lo ≤ d → d ≤ p.1 → ext d = none) → v = none) ∧
    (∀ (col : List (Option ℚ)) (i : Nat), col[i]? = some none →
      presentVals col ≠ [] →
      (imputeNumericCol col)[i]? =
        some (some ((presentVals col).sum / ((presentVals col).length : ℚ)))) ∧
    (∀ (ccol : List (Option String)) (j : Nat), ccol[j]? = some none →
      presentVals ccol ≠ [] →
      ∃ m, (imputeCategoricalCol ccol)[j]? = some (some m) ∧
        m ∈ presentVals ccol ∧
        ∀ v ∈ presentVals ccol,
          countVal (presentVals ccol) v ≤ countVal (presentVals ccol) m) ∧
    ((∃ d ∈ dateRange lo hi, (ext d).isSome = true) →
      ∃ dk, lo ≤ dk ∧ dk ≤ hi ∧ (ext dk).isSome = true ∧
        (∀ e, dk < e → e ≤ hi → ext e = none) ∧
        some (forecastExtVal (ffill (extCells ext (gridPairs lo hi cats)))) =
          ext dk) ∧
    ((∀ d ∈ dateRange lo hi, ext d = none) →
      forecastExtVal (ffill (extCells ext (gridPairs lo hi cats))) = 0) := by
  refine ⟨?_, ?_, ?_, ?_, ?_⟩
  · intro p v hmem hall
    obtain ⟨hv, hplo, hphi, -⟩ := ffill_grid_cell_val ext hcats hmem
    rw [hv]
    apply accFold_all_none
    intro x hx
    have hb := mem_dateRangeAux.mp hx
    exact hall x hb.1 (by omega)
  · intro col i h1 h2
    exact imputeNumericCol_getElem h1 h2
  · intro ccol j h1 h2
    obtain ⟨m, hm, hmem, hmax⟩ := colMode_spec h2
    refine ⟨m, ?_, hmem, hmax⟩
    rw [imputeCategoricalCol_getElem h1, hm]
  · intro hknown
    obtain ⟨dk, h1, h2, h3, h4, h5⟩ := forecastExtVal_last_known ext hcats hlo hknown
    exact ⟨dk, h1, h2, h3, h4, h5⟩
  · intro hall
    have hcells : ∀ x ∈ extCells ext (gridPairs lo hi cats), x = none := by
      intro x hx
      obtain ⟨p, hp, rfl⟩ := List.mem_map.mp hx
      exact hall p.1 (mem_crossPairs.mp hp).1
    unfold forecastExtVal
    rw [show ffill (extCells ext (gridPairs lo hi cats)) =
        extCells ext (gridPairs lo hi cats) from ffillAux_none_all _ hcells]
    rw [filterMap_id_nil _ hcells]
    rfl

theorem C9_unresolved_handling_witness :
    ((["rifle"] : List String) ≠ []) ∧ 10 ≤ 12 ∧
    ((∀ p v, (p, v) ∈ (gridPairs 10 12 ["rifle"]).zip
        (ffill (extCells (fun d => if d = 11 then some (3 : ℚ) else none)
          (gridPairs 10 12 ["rifle"]))) →
      (∀ d, 10 ≤ d → d ≤ p.1 →
        (fun d => if d = 11 then some (3 : ℚ) else none) d = none) → v = none) ∧
    (∀ (col : List (Option ℚ)) (i : Nat), col[i]? = some none →
      presentVals col ≠ [] →
      (imputeNumericCol col)[i]? =
        some (some ((presentVals col).sum / ((presentVals col).length : ℚ)))) ∧
    (∀ (ccol : List (Option String)) (j : Nat), ccol[j]? = some none →
      presentVals ccol ≠ [] →
      ∃ m, (imputeCategoricalCol ccol)[j]? = some (some m) ∧
        m ∈ presentVals ccol ∧
        ∀ v ∈ presentVals ccol,
          countVal (presentVals ccol) v ≤ countVal (presentVals ccol) m) ∧
    ((∃ d ∈ dateRange 10 12,
        ((fun d => if d = 11 then some (3 : ℚ) else none) d).isSome = true) →
      ∃ dk, 10 ≤ dk ∧ dk ≤ 12 ∧
        ((fun d => if d = 11 then some (3 : ℚ) else none) dk).isSome = true ∧
        (∀ e, dk < e → e ≤ 12 →
          (fun d => if d = 11 then some (3 : ℚ) else none) e = none) ∧
        some (forecastExtVal (ffill (extCells
          (fun d => if d = 11 then some (3 : ℚ) else none)
          (gridPairs 10 12 ["rifle"])))) =
          (fun d => if d = 11 then some (3 : ℚ) else none) dk) ∧
    ((∀ d ∈ dateRange 10 12,
        (fun d => if d = 11 then some (3 : ℚ) else none) d = none) →
      forecastExtVal (ffill (extCells
        (fun d => if d = 11 then some (3 : ℚ) else none)
        (gridPairs 10 12 ["rifle"]))) = 0)) :=
  ⟨by decide, by decide,
    C9_unresolved_handling (fun d => if d = 11 then some (3 : ℚ) else none)
      10 12 ["rifle"] (by decide) (by decide)⟩

end Scope
